import Mathlib

/-!
# Verification of the Hofstadter band-structure core

Shallow embedding of the core algorithmic components of the repository
(`functions/models.py`, `functions/band_structure.py`, `models/hofstadter.py`)
and proofs of the specification claims about them.

Python floats are modelled as real numbers, complex numbers as `ℂ`, and
numpy arrays as lists / functions / `Matrix`.  Python's `%` on floats is
modelled by `pymod` (result has the sign of the divisor), `round(x)` by
Mathlib's `round` (they agree except at exact half-integer ties, which do
not occur at any input used below), and `raise` by `Option`/`Except`
error values.
-/

open Complex Real

open scoped Matrix

noncomputable section

namespace HofTools

/-- Python float modulus `x % y` (result lies in `[0, y)` for `y > 0`). -/
def pymod (x y : ℝ) : ℝ := x - y * ⌊x / y⌋

/-- Python `round(x, 10)`: round to 10 decimal places (model of the
`round(np.linalg.norm(r), 10)` call in `nearest_neighbor_finder`). -/
def pyround10 (x : ℝ) : ℝ := (round (x * 10 ^ 10) : ℤ) / 10 ^ 10

/-- Embedding of `_principal` from `functions/band_structure.py`:
if `im <= -pi` return `re + 1j*(pi - abs(im+pi) % (2 pi))`, else if
`im > pi` return `re + 1j*(-pi + abs(im+pi) % (2 pi))`, else return `z`. -/
def principal (z : ℂ) : ℂ :=
  if z.im ≤ -π then (z.re : ℂ) + Complex.I * ((π - pymod |z.im + π| (2 * π) : ℝ) : ℂ)
  else if π < z.im then (z.re : ℂ) + Complex.I * ((-π + pymod |z.im + π| (2 * π) : ℝ) : ℂ)
  else z

lemma pymod_nonneg {x y : ℝ} (hy : 0 < y) : 0 ≤ pymod x y := by
  have h := Int.floor_le (x / y)
  have : (⌊x / y⌋ : ℝ) * y ≤ x := by
    rw [← le_div_iff₀ hy]; exact h
  simp only [pymod]
  nlinarith

lemma pymod_lt {x y : ℝ} (hy : 0 < y) : pymod x y < y := by
  have h := Int.lt_floor_add_one (x / y)
  have : x < (⌊x / y⌋ : ℝ) * y + y := by
    have := (div_lt_iff₀ hy).mp h
    nlinarith
  simp only [pymod]
  nlinarith

lemma principal_re (z : ℂ) : (principal z).re = z.re := by
  unfold principal
  split_ifs <;> simp

lemma principal_im_mem (z : ℂ) (h : ¬ (π < z.im ∧ pymod |z.im + π| (2 * π) = 0)) :
    -π < (principal z).im ∧ (principal z).im ≤ π := by
  have hπ := Real.pi_pos
  have h2π : (0:ℝ) < 2 * π := by linarith
  unfold principal
  split_ifs with h1 h2
  · have ha := pymod_nonneg (x := |z.im + π|) h2π
    have hb := pymod_lt (x := |z.im + π|) h2π
    constructor <;> simp <;> linarith
  · have ha := pymod_nonneg (x := |z.im + π|) h2π
    have hb := pymod_lt (x := |z.im + π|) h2π
    have hne : pymod |z.im + π| (2 * π) ≠ 0 := fun hc => h ⟨h2, hc⟩
    have hpos : 0 < pymod |z.im + π| (2 * π) := lt_of_le_of_ne ha (Ne.symm hne)
    constructor <;> simp <;> linarith
  · exact ⟨lt_of_not_le h1, le_of_not_lt h2⟩

/-- The spec-claimed range `(−π, π]` holds in the `im ≤ −π` branch and the
no-change branch, and fails in the `im > π` branch only when
`|im + π| % 2π = 0`, i.e. when `im` is an odd multiple of `π`. -/
theorem principal_unchanged (z : ℂ) (h1 : -π < z.im) (h2 : z.im ≤ π) :
    principal z = z := by
  unfold principal
  rw [if_neg (by linarith), if_neg (by linarith)]

/-- **C3 (code bug)**: the claim states that for every complex number the
principal-branch function `_principal` returns a value with imaginary part in
`(−π, π]` (as does the function's own docstring).  At the failing input
`z = 3π·i` the code takes the `im > π` branch, computes
`|im + π| % 2π = 4π % 2π = 0`, and returns imaginary part `−π + 0 = −π`,
which lies outside `(−π, π]`.  The real part is unchanged and the correct
reduction of `3π` modulo `2π` into `(−π, π]` would be `π`, not `−π`. -/
theorem c3_principal_failing_input :
    (principal ((3 * π : ℝ) * Complex.I)).im = -π ∧
      ¬ (-π < (principal ((3 * π : ℝ) * Complex.I)).im) := by
  have hπ := Real.pi_pos
  have him : ((3 * π : ℝ) * Complex.I).im = 3 * π := by simp
  have hbr1 : ¬ ((3 * π : ℝ) * Complex.I).im ≤ -π := by rw [him]; push_neg; nlinarith
  have hbr2 : π < ((3 * π : ℝ) * Complex.I).im := by rw [him]; nlinarith
  have hmod : pymod |3 * π + π| (2 * π) = 0 := by
    have habs : |3 * π + π| = 4 * π := by rw [abs_of_pos (by nlinarith)]; ring
    have hq : (4 * π) / (2 * π) = (2 : ℝ) := by
      field_simp; ring
    rw [pymod, habs, hq]
    have : ⌊(2:ℝ)⌋ = 2 := by norm_num
    rw [this]; push_cast; ring
  have him4 : (principal ((3 * π : ℝ) * Complex.I)).im = -π := by
    unfold principal
    rw [if_neg hbr1, if_pos hbr2, him, hmod]
    simp
  exact ⟨him4, by rw [him4]; simp⟩

/-! ## Peierls phase engine (`peierls_factor` in `functions/models.py`) -/

/-- The basis-dependent area normalization in `peierls_factor`:
`basis == 1 → 1`, `basis == 2 → 3`, otherwise the code raises
`ValueError`, modelled as `none`. -/
def peierlsArea (basis : ℕ) : Option ℝ :=
  if basis = 1 then some 1 else if basis = 2 then some 3 else none

/-- Embedding of `peierls_factor(basis, nphi, vec, m)`:
`phase = 2π·nphi·vec[1]·(m + vec[0]/2) / area`, `factor = exp(1j·phase)`.
For an unsupported basis (where the code raises) we return `0`; no claim
evaluates that case. -/
def peierls_factor (basis : ℕ) (nphi : ℝ) (vec : ℤ × ℤ) (m : ℝ) : ℂ :=
  match peierlsArea basis with
  | some area =>
      Complex.exp (Complex.I *
        ((2 * π * nphi * (vec.2 : ℝ) * (m + (vec.1 : ℝ) / 2) / area : ℝ) : ℂ))
  | none => 0

/-- **C5 (confirmed)**: for basis size 1 or 2 the Peierls phase engine
returns exactly `exp(i · 2π · nphi · Δy · (m + Δx/2) / A)` with `A = 1`
for a single-site basis and `A = 3` for the two-site basis. -/
theorem c5_peierls_factor_formula (basis : ℕ) (nphi : ℝ) (v : ℤ × ℤ) (m : ℝ)
    (h : basis = 1 ∨ basis = 2) :
    peierls_factor basis nphi v m =
      Complex.exp (Complex.I *
        ((2 * π * nphi * (v.2 : ℝ) * (m + (v.1 : ℝ) / 2) /
          (if basis = 1 then (1 : ℝ) else 3) : ℝ) : ℂ)) := by
  rcases h with h | h <;> subst h <;> simp [peierls_factor, peierlsArea]

/-- Witness for C5: concrete evaluation at basis 1, `nphi = 1/2`,
`vec = (1, 1)`, `m = 0`. -/
theorem c5_peierls_factor_formula_witness :
    peierls_factor 1 (1/2) (1, 1) 0 =
      Complex.exp (Complex.I *
        ((2 * π * (1/2) * (((1:ℤ), (1:ℤ)).2 : ℝ) * ((0:ℝ) + (((1:ℤ), (1:ℤ)).1 : ℝ) / 2) /
          (if (1:ℕ) = 1 then (1 : ℝ) else 3) : ℝ) : ℂ)) :=
  c5_peierls_factor_formula 1 (1/2) (1, 1) 0 (Or.inl rfl)

/-! ## Call-site arities (`Hofstadter.hamiltonian` in `models/hofstadter.py`)

`Hofstadter.hamiltonian` is supposed to compose the neighbor enumerator,
path grouper, phase engine and assembler.  In Python, calling a function
whose `def` has `n` parameters (none of them with default values) with
`m ≠ n` positional arguments raises `TypeError` before the body runs. -/

/-- Number of parameters of
`def nearest_neighbor_finder(avec, acartvec, abasisvec, t_list, m_init, n_init)`
in `functions/models.py` (none have defaults). -/
def nearest_neighbor_finder_params : ℕ := 6

/-- Number of arguments in the call
`fm.nearest_neighbor_finder("square", self.t)` inside
`Hofstadter.hamiltonian` in `models/hofstadter.py`. -/
def hofstadter_nnf_call_args : ℕ := 2

/-- Number of parameters of
`def Hamiltonian(basis, t_val, p_val, q_val, acartvec, vec_group_list, k_val)`
in `functions/models.py` (none have defaults). -/
def hamiltonian_assembler_params : ℕ := 7

/-- Number of arguments in the call
`fm.Hamiltonian(self.t, self.p, self.q, vec_group, k_val)` inside
`Hofstadter.hamiltonian` in `models/hofstadter.py`. -/
def hofstadter_assembler_call_args : ℕ := 5

/-- A Python call of a function with `params` parameters (no defaults) and
`args` positional arguments raises `TypeError` iff the counts differ. -/
def python_call_raises_TypeError (params args : ℕ) : Prop := params ≠ args

/-- **C2 (code bug)**: the claim states `hamiltonian(k)` successfully
composes the pipeline and returns the `q×q` Hamiltonian without raising.
In the code, both delegated calls have the wrong arity —
`nearest_neighbor_finder` (6 required parameters) is called with 2
arguments and the assembler `Hamiltonian` (7 required parameters) with 5 —
so `Hofstadter.hamiltonian` raises `TypeError` for every input, never
reaching the assembler. -/
theorem c2_hamiltonian_call_arity_mismatch :
    python_call_raises_TypeError nearest_neighbor_finder_params hofstadter_nnf_call_args ∧
      python_call_raises_TypeError hamiltonian_assembler_params hofstadter_assembler_call_args := by
  exact ⟨by unfold python_call_raises_TypeError
              nearest_neighbor_finder_params hofstadter_nnf_call_args; decide,
         by unfold python_call_raises_TypeError
              hamiltonian_assembler_params hofstadter_assembler_call_args; decide⟩

/-! ## Lattice model (`Hofstadter.unit_cell` in `models/hofstadter.py`) -/

/-- Python error outcomes relevant to `unit_cell`.  The code contains no
`raise` statement in `unit_cell`: for a lattice tag other than `"square"`
and `"triangular"` neither branch runs and the `return` statement hits
unassigned local variables (`UnboundLocalError`).  A descriptive
configuration error, as raised elsewhere in the repository
(e.g. `raise ValueError(...)` in `peierls_factor`), would be a
`valueError` with a message. -/
inductive PyError where
  | unboundLocalError : PyError
  | valueError : String → PyError
deriving DecidableEq

/-- The tuple returned by `Hofstadter.unit_cell`. -/
structure UnitCell where
  num_bands : ℕ
  a1 : ℝ × ℝ
  a2 : ℝ × ℝ
  b1 : ℝ × ℝ
  b2 : ℝ × ℝ
  sym_points : List (ℝ × ℝ)

/-- Embedding of `Hofstadter.unit_cell` (`self.q = q`, `self.a0 = a0`,
`self.lat = lat`), including the fall-through crash for unsupported
lattice tags. -/
def unit_cell (lat : String) (q : ℕ) (a0 : ℝ) : Except PyError UnitCell :=
  if lat = "square" then
    Except.ok
      { num_bands := q
        a1 := (a0 * q, 0)
        a2 := (0, a0 * 1)
        b1 := (2 * π / a0 * (1 / q), 0)
        b2 := (0, 2 * π / a0 * 1)
        sym_points := [(0, 0), (0, 0.5), (0.5, 0.5), (0.5, 0)] }
  else if lat = "triangular" then
    Except.ok
      { num_bands := q
        a1 := (a0 * q, 0)
        a2 := (a0 * (1 / 2), a0 * (Real.sqrt 3 / 2))
        b1 := (2 * π / a0 * (1 / q), 2 * π / a0 * (-(q : ℝ) / Real.sqrt 3))
        b2 := (0, 2 * π / a0 * (2 / Real.sqrt 3))
        sym_points := [(0, 0), (0, 0.5), (0.5, 0.5), (0.5, 0)] }
  else
    Except.error PyError.unboundLocalError

/-- Euclidean dot product on `ℝ × ℝ`. -/
def dot (u v : ℝ × ℝ) : ℝ := u.1 * v.1 + u.2 * v.2

/-- `a2 · b1` of a `unit_cell` result (`0` on the error branch, which no
claim evaluates). -/
def a2dotb1 (e : Except PyError UnitCell) : ℝ :=
  match e with
  | Except.ok uc => dot uc.a2 uc.b1
  | Except.error _ => 0

/-- **C6 (code bug)**: the claim states that for both lattices and all
`q ≥ 1` the direct and reciprocal vectors satisfy `a_i · b_j = 2π δ_ij`.
On the triangular lattice with `q = 2`, `a0 = 1`, the code's
`b1 = 2π(1/q, −q/√3)` gives `a2 · b1 = 2π(1/(2q) − q/2) = −3π/2 ≠ 0`
(the correct second component would be `−1/(q√3)`, not `−q/√3`).
The square-lattice vectors do satisfy the duality for every `q`. -/
theorem c6_triangular_duality_violation :
    a2dotb1 (unit_cell "triangular" 2 1) = -(3 * π) / 2 ∧
      a2dotb1 (unit_cell "triangular" 2 1) ≠ 0 := by
  have hs3 : Real.sqrt 3 ≠ 0 := by
    have : (0:ℝ) < Real.sqrt 3 := Real.sqrt_pos.mpr (by norm_num)
    linarith
  have hval : a2dotb1 (unit_cell "triangular" 2 1) = -(3 * π) / 2 := by
    have h1 : (("triangular" : String) = "square") = False := by
      simp
    simp only [unit_cell, h1, if_false, if_pos rfl, a2dotb1, dot]
    push_cast
    field_simp
    ring
  refine ⟨hval, ?_⟩
  rw [hval]
  have := Real.pi_pos
  intro hc
  nlinarith

/-- The claim's notion of a descriptive configuration error: the call
fails with a `ValueError` carrying a message (the repository's
convention for configuration errors, cf. `peierls_factor`). -/
def isConfigError (e : Except PyError UnitCell) : Prop :=
  ∃ msg, e = Except.error (PyError.valueError msg)

/-- **C8 counterexample**: on the unsupported lattice tag `"honeycomb"`
`unit_cell` does not produce a descriptive configuration error — it
crashes with an `UnboundLocalError` at the `return` statement. -/
theorem c8_no_config_error_counterexample :
    ¬ isConfigError (unit_cell "honeycomb" 3 1) := by
  intro h
  obtain ⟨msg, hmsg⟩ := h
  have h1 : (("honeycomb" : String) = "square") = False := by simp
  have h2 : (("honeycomb" : String) = "triangular") = False := by simp
  simp only [unit_cell, h1, h2, if_false] at hmsg
  exact absurd (Except.error.inj hmsg) (by simp)

/-- **C8 (corrected)**: for every lattice tag other than `"square"` and
`"triangular"`, `unit_cell()` does fail fast before any matrix work, but
with an unbound-local crash at the `return` statement rather than a
descriptive configuration error. -/
theorem c8_unsupported_lattice_crashes (lat : String) (q : ℕ) (a0 : ℝ)
    (h1 : lat ≠ "square") (h2 : lat ≠ "triangular") :
    unit_cell lat q a0 = Except.error PyError.unboundLocalError := by
  simp only [unit_cell, if_neg h1, if_neg h2]

/-- Witness for C8: the concrete unsupported tag `"honeycomb"`. -/
theorem c8_unsupported_lattice_crashes_witness :
    unit_cell "honeycomb" 3 1 = Except.error PyError.unboundLocalError :=
  c8_unsupported_lattice_crashes "honeycomb" 3 1 (by decide) (by decide)

/-! ## Geometric invariant engine (`functions/band_structure.py`)

The eigenvector field `_eigenvectors[comp, band, idx_x, idx_y]` is
modelled as a function `E : ℕ → ℕ → ℕ → ℕ → ℂ` together with the number
of components `N` (the first array dimension); `np.conj(vec1).dot(vec2)`
becomes a sum over `Finset.range N`. -/

/-- `np.conj(E[:, b1, x1, y1]).dot(E[:, b2, x2, y2])`. -/
def innerOf (N : ℕ) (E : ℕ → ℕ → ℕ → ℕ → ℂ) (b1 x1 y1 b2 x2 y2 : ℕ) : ℂ :=
  ∑ c ∈ Finset.range N, (starRingEnd ℂ) (E c b1 x1 y1) * E c b2 x2 y2

/-- The quantum geometric tensor for `_group_size = 1`
(the body of the `if _group_size == 1` branch of `geom_tensor`):
entry `(μ, ν)` is `⟨v_μ, v_ν⟩ − ⟨v_μ, v⟩⟨v, v_ν⟩` with
`v = E[:, band, x, y]`, `v_0 = E[:, band, x+1, y]`, `v_1 = E[:, band, x, y+1]`. -/
def geomTensorMat (N : ℕ) (E : ℕ → ℕ → ℕ → ℕ → ℂ) (band x y : ℕ) :
    Matrix (Fin 2) (Fin 2) ℂ :=
  let p : Fin 2 → ℕ × ℕ := fun μ => if μ = 0 then (x + 1, y) else (x, y + 1)
  Matrix.of fun μ ν =>
    innerOf N E band (p μ).1 (p μ).2 band (p ν).1 (p ν).2 -
      innerOf N E band (p μ).1 (p μ).2 band x y * innerOf N E band x y band (p ν).1 (p ν).2

/-- Embedding of `geom_tensor(_eigenvectors, _band, _idx_x, _idx_y, _group_size)`;
for `_group_size ≠ 1` the code raises `ValueError`, modelled as `none`. -/
def geom_tensor (N : ℕ) (E : ℕ → ℕ → ℕ → ℕ → ℂ) (band x y group_size : ℕ) :
    Option (Matrix (Fin 2) (Fin 2) ℂ) :=
  if group_size = 1 then some (geomTensorMat N E band x y) else none

lemma innerOf_conj (N : ℕ) (E : ℕ → ℕ → ℕ → ℕ → ℂ) (b1 x1 y1 b2 x2 y2 : ℕ) :
    (starRingEnd ℂ) (innerOf N E b1 x1 y1 b2 x2 y2) = innerOf N E b2 x2 y2 b1 x1 y1 := by
  unfold innerOf
  rw [map_sum]
  refine Finset.sum_congr rfl fun c _ => ?_
  simp [mul_comm]

/-- **C10 (confirmed)**: for every eigenvector field, band and grid indices,
with group size 1 `geom_tensor` returns a 2×2 matrix equal to its own
conjugate transpose: entry (1,0) is the complex conjugate of entry (0,1)
and the diagonal entries are real. -/
theorem c10_geom_tensor_hermitian (N : ℕ) (E : ℕ → ℕ → ℕ → ℕ → ℂ) (band x y : ℕ) :
    geom_tensor N E band x y 1 = some (geomTensorMat N E band x y) ∧
      (geomTensorMat N E band x y)ᴴ = geomTensorMat N E band x y := by
  constructor
  · rfl
  · ext μ ν
    simp only [Matrix.conjTranspose_apply, geomTensorMat, Matrix.of_apply]
    rw [star_sub]
    show (starRingEnd ℂ) _ - (starRingEnd ℂ) _ = _
    rw [innerOf_conj, map_mul, innerOf_conj, innerOf_conj, mul_comm]

/-- Embedding of the inner function `_U(var_num, ...)` of `berry_curv`:
the determinant of the `group_size × group_size` matrix of inner products
between the eigenvector set at `(x, y)` and the set at the forward
neighbor in direction `var_num` (`1` for x, `2` for y; any other value
raises, modelled by a zero matrix entry — no claim evaluates it). -/
def linkU (N : ℕ) (E : ℕ → ℕ → ℕ → ℕ → ℂ) (var_num band x y group_size : ℕ) : ℂ :=
  Matrix.det (Matrix.of fun i j : Fin group_size =>
    if var_num = 1 then innerOf N E (band + i) x y (band + j) (x + 1) y
    else if var_num = 2 then innerOf N E (band + i) x y (band + j) x (y + 1)
    else 0)

/-- Method-1 Berry curvature (the `method == 1` branch of `berry_curv`):
minus the imaginary part of the log of the four-link Wilson-loop product. -/
def berry_curv_m1 (N : ℕ) (E : ℕ → ℕ → ℕ → ℕ → ℂ) (band x y group_size : ℕ) : ℝ :=
  - (Complex.log (linkU N E 1 band x y group_size
      * linkU N E 2 band (x + 1) y group_size
      * (linkU N E 1 band x (y + 1) group_size)⁻¹
      * (linkU N E 2 band x y group_size)⁻¹)).im

/-- Embedding of `berry_curv(_eigenvectors, _band, _idx_x, _idx_y,
_group_size, method)`; the `ValueError` raises (method 2 with a band
group, or a method outside `[1, 2]`) are modelled as `none`. -/
def berry_curv (N : ℕ) (E : ℕ → ℕ → ℕ → ℕ → ℂ) (band x y group_size method : ℕ) :
    Option ℝ :=
  if method = 1 then some (berry_curv_m1 N E band x y group_size)
  else if method = 2 then
    if group_size = 1 then
      some (-2 * (innerOf N E band (x + 1) y band x (y + 1) -
        innerOf N E band (x + 1) y band x y * innerOf N E band x y band x (y + 1)).im)
    else none
  else none

/-- Multiplying the eigenvector of band `b₀` at the single grid point
`(a, b)` by the phase `lam`: `E'[c, band, x, y] = lam · E[c, band, x, y]`
there and `E` everywhere else. -/
def gaugeAt (E : ℕ → ℕ → ℕ → ℕ → ℂ) (b₀ a b : ℕ) (lam : ℂ) :
    ℕ → ℕ → ℕ → ℕ → ℂ :=
  fun c band x y => if band = b₀ ∧ x = a ∧ y = b then lam * E c band x y else E c band x y

/-- The scalar picked up by component `c` of band `b₀` at `(x, y)` under
`gaugeAt`. -/
def gaugePhase (a b : ℕ) (lam : ℂ) (x y : ℕ) : ℂ :=
  if x = a ∧ y = b then lam else 1

lemma gaugeAt_apply (E : ℕ → ℕ → ℕ → ℕ → ℂ) (b₀ a b : ℕ) (lam : ℂ) (c x y : ℕ) :
    gaugeAt E b₀ a b lam c b₀ x y = gaugePhase a b lam x y * E c b₀ x y := by
  unfold gaugeAt gaugePhase
  by_cases h : x = a ∧ y = b <;> simp [h]

lemma innerOf_gaugeAt (N : ℕ) (E : ℕ → ℕ → ℕ → ℕ → ℂ) (b₀ a b : ℕ) (lam : ℂ)
    (x1 y1 x2 y2 : ℕ) :
    innerOf N (gaugeAt E b₀ a b lam) b₀ x1 y1 b₀ x2 y2 =
      (starRingEnd ℂ) (gaugePhase a b lam x1 y1) * gaugePhase a b lam x2 y2 *
        innerOf N E b₀ x1 y1 b₀ x2 y2 := by
  unfold innerOf
  rw [Finset.mul_sum]
  refine Finset.sum_congr rfl fun c _ => ?_
  rw [gaugeAt_apply, gaugeAt_apply, map_mul]
  ring

lemma linkU_one (N : ℕ) (E : ℕ → ℕ → ℕ → ℕ → ℂ) (v band x y : ℕ) :
    linkU N E v band x y 1 =
      if v = 1 then innerOf N E band x y band (x + 1) y
      else if v = 2 then innerOf N E band x y band x (y + 1)
      else 0 := by
  unfold linkU
  rw [Matrix.det_fin_one]
  simp

lemma linkU_gaugeAt (N : ℕ) (E : ℕ → ℕ → ℕ → ℕ → ℂ) (b₀ a b : ℕ) (lam : ℂ)
    (v x y : ℕ) (hv : v = 1 ∨ v = 2) :
    linkU N (gaugeAt E b₀ a b lam) v b₀ x y 1 =
      (starRingEnd ℂ) (gaugePhase a b lam x y) *
        gaugePhase a b lam (if v = 1 then x + 1 else x) (if v = 1 then y else y + 1) *
        linkU N E v b₀ x y 1 := by
  rcases hv with hv | hv <;> subst hv <;>
    simp only [linkU_one, if_pos rfl, innerOf_gaugeAt] <;> norm_num [innerOf_gaugeAt]

lemma gaugePhase_unit (a b : ℕ) (lam : ℂ) (hlam : Complex.abs lam = 1) (x y : ℕ) :
    (starRingEnd ℂ) (gaugePhase a b lam x y) * gaugePhase a b lam x y = 1 := by
  unfold gaugePhase
  by_cases h : x = a ∧ y = b
  · rw [if_pos h]
    rw [mul_comm, Complex.mul_conj, Complex.normSq_eq_abs, hlam]
    norm_num
  · rw [if_neg h]; simp

lemma gaugePhase_ne_zero (a b : ℕ) (lam : ℂ) (hlam : Complex.abs lam = 1) (x y : ℕ) :
    gaugePhase a b lam x y ≠ 0 := by
  unfold gaugePhase
  by_cases h : x = a ∧ y = b
  · rw [if_pos h]
    intro hc
    rw [hc] at hlam
    simp at hlam
  · rw [if_neg h]; exact one_ne_zero

/-- **C9 (confirmed)**: with group size 1, multiplying the eigenvector of
the chosen band at any single grid point by any unit-modulus phase leaves
the Method-1 Berry curvature of every plaquette (with nonzero link
variables) exactly unchanged: the phase factors picked up by the four
link variables cancel around the Wilson loop. -/
theorem c9_berry_curv_gauge_invariant (N : ℕ) (E : ℕ → ℕ → ℕ → ℕ → ℂ)
    (b₀ x y a b : ℕ) (lam : ℂ) (hlam : Complex.abs lam = 1)
    (h1 : linkU N E 1 b₀ x y 1 ≠ 0) (h2 : linkU N E 2 b₀ (x + 1) y 1 ≠ 0)
    (h3 : linkU N E 1 b₀ x (y + 1) 1 ≠ 0) (h4 : linkU N E 2 b₀ x y 1 ≠ 0) :
    berry_curv N (gaugeAt E b₀ a b lam) b₀ x y 1 1 = berry_curv N E b₀ x y 1 1 := by
  have hprod :
      linkU N (gaugeAt E b₀ a b lam) 1 b₀ x y 1
        * linkU N (gaugeAt E b₀ a b lam) 2 b₀ (x + 1) y 1
        * (linkU N (gaugeAt E b₀ a b lam) 1 b₀ x (y + 1) 1)⁻¹
        * (linkU N (gaugeAt E b₀ a b lam) 2 b₀ x y 1)⁻¹ =
      linkU N E 1 b₀ x y 1 * linkU N E 2 b₀ (x + 1) y 1
        * (linkU N E 1 b₀ x (y + 1) 1)⁻¹ * (linkU N E 2 b₀ x y 1)⁻¹ := by
    rw [linkU_gaugeAt N E b₀ a b lam 1 x y (Or.inl rfl),
        linkU_gaugeAt N E b₀ a b lam 2 (x + 1) y (Or.inr rfl),
        linkU_gaugeAt N E b₀ a b lam 1 x (y + 1) (Or.inl rfl),
        linkU_gaugeAt N E b₀ a b lam 2 x y (Or.inr rfl)]
    simp only [if_pos rfl, reduceIte]
    have c00 := gaugePhase_unit a b lam hlam x y
    have c10 := gaugePhase_unit a b lam hlam (x + 1) y
    have c01 := gaugePhase_unit a b lam hlam x (y + 1)
    have c11 := gaugePhase_unit a b lam hlam (x + 1) (y + 1)
    have n00 := gaugePhase_ne_zero a b lam hlam x y
    have n10 := gaugePhase_ne_zero a b lam hlam (x + 1) y
    have n01 := gaugePhase_ne_zero a b lam hlam x (y + 1)
    have n11 := gaugePhase_ne_zero a b lam hlam (x + 1) (y + 1)
    have s00 : (starRingEnd ℂ) (gaugePhase a b lam x y) = (gaugePhase a b lam x y)⁻¹ :=
      eq_inv_of_mul_eq_one_left c00
    have s10 : (starRingEnd ℂ) (gaugePhase a b lam (x + 1) y) =
        (gaugePhase a b lam (x + 1) y)⁻¹ := eq_inv_of_mul_eq_one_left c10
    have s01 : (starRingEnd ℂ) (gaugePhase a b lam x (y + 1)) =
        (gaugePhase a b lam x (y + 1))⁻¹ := eq_inv_of_mul_eq_one_left c01
    rw [s00, s10, s01]
    field_simp
    ring
  unfold berry_curv berry_curv_m1
  rw [if_pos rfl, if_pos rfl, hprod]

/-- Witness for C9: the constant all-ones one-component field, gauge phase
`lam = i` applied to band 0 at grid point `(0, 0)`; every link variable is
the 1×1 determinant of the inner product `conj 1 · 1 = 1 ≠ 0` and `|i| = 1`. -/
theorem c9_berry_curv_gauge_invariant_witness :
    berry_curv 1 (gaugeAt (fun _ _ _ _ => 1) 0 0 0 Complex.I) 0 0 0 1 1 =
      berry_curv 1 (fun _ _ _ _ => 1) 0 0 0 1 1 := by
  have hlink : ∀ v x y : ℕ, v = 1 ∨ v = 2 →
      linkU 1 (fun _ _ _ _ => (1 : ℂ)) v 0 x y 1 = 1 := by
    intro v x y hv
    rcases hv with hv | hv <;> subst hv <;>
      simp [linkU_one, innerOf]
  exact c9_berry_curv_gauge_invariant 1 (fun _ _ _ _ => 1) 0 0 0 0 0 Complex.I
    (by simp)
    (by rw [hlink 1 0 0 (Or.inl rfl)]; exact one_ne_zero)
    (by rw [hlink 2 1 0 (Or.inr rfl)]; exact one_ne_zero)
    (by rw [hlink 1 0 1 (Or.inl rfl)]; exact one_ne_zero)
    (by rw [hlink 2 0 0 (Or.inr rfl)]; exact one_ne_zero)

/-! ## Neighbor table rows and the path grouper
(`nearest_neighbor_finder` / `nearest_neighbor_sorter` in `functions/models.py`)

A row of the 10-column displacement table `data`: columns 0–9 are
radius, angle, x, y, lattice-basis Δm, Δn, shell index, reference cell
m₀, n₀, and net translation `m₀ + Δm`. -/

structure Row where
  r : ℝ
  angle : ℝ
  x : ℝ
  y : ℝ
  dm : ℤ
  dn : ℤ
  nn : ℕ
  m0 : ℤ
  n0 : ℤ
  mtot : ℤ

/-- Backtrack removal (step 1 of `nearest_neighbor_sorter`): delete rows
with `val[7] + val[4] == 0 and val[8] + val[5] == 0`. -/
def filteredOf (data : List Row) : List Row :=
  data.filter fun v => ¬ (v.m0 + v.dm = 0 ∧ v.n0 + v.dn = 0)

/-- The net translation assigned to a hopping path by the code: for a
doubled path `[val, val2]` the endpoint of larger absolute translation
(ties resolved in favor of `val2`), for a single path the row's own
net-translation column. -/
def mtotOfRows : List Row → ℤ
  | [v] => v.mtot
  | [v, v2] => if max |v.mtot| |v2.mtot| = |v2.mtot| then v2.mtot else v.mtot
  | _ => 0

/-- The origin-anchored rows (`val[7] == 0 and val[8] == 0`) of the
backtrack-filtered table. -/
def originRows (data : List Row) : List Row :=
  (filteredOf data).filter fun v => v.m0 = 0 ∧ v.n0 = 0

/-- The doubled paths: each origin-anchored row paired with every row
continuing from its endpoint cell, tagged with the net translation of the
endpoint of larger absolute translation (ties to the second row). -/
def pairPaths (data : List Row) : List (List Row × ℤ) :=
  (originRows data).flatMap fun v =>
    ((filteredOf data).filter fun v2 =>
        v.m0 + v.dm = v2.m0 ∧ v.n0 + v.dn = v2.n0).map fun v2 =>
      ([v, v2], if max |v.mtot| |v2.mtot| = |v2.mtot| then v2.mtot else v.mtot)

/-- Steps 2–3 of `nearest_neighbor_sorter`: the list of independent
hopping paths, each with its net translation index.  Doubled paths are
used when at least one exists (`numb_paths > 0` in the counting loop),
otherwise each origin-anchored row is a single path. -/
def pathsOf (data : List Row) : List (List Row × ℤ) :=
  if (pairPaths data).isEmpty then (originRows data).map fun v => ([v], v.mtot)
  else pairPaths data

/-- Steps 4–5 of `nearest_neighbor_sorter`: bucket the paths by their
distinct net translation indices, in ascending order
(`np.sort(list(set(m_tot)))`). -/
def nearest_neighbor_sorter (data : List Row) : List (List (List Row) × ℤ) :=
  let paths := pathsOf data
  let msort := ((paths.map Prod.snd).toFinset.sort (· ≤ ·))
  msort.map fun mval => (((paths.filter fun p => p.2 = mval).map Prod.fst), mval)

lemma pathsOf_snd_eq (data : List Row) :
    ∀ p ∈ pathsOf data, p.2 = mtotOfRows p.1 := by
  intro p hp
  unfold pathsOf at hp
  split at hp
  · obtain ⟨v, _, rfl⟩ := List.mem_map.mp hp
    rfl
  · obtain ⟨v, _, hv2⟩ := List.mem_flatMap.mp hp
    obtain ⟨v2, _, rfl⟩ := List.mem_map.mp hv2
    rfl

/-- **C7 (confirmed)**: for every displacement table, (1) every hopping
path built by the Path Grouper lies in exactly one output group, (2) the
number of groups equals the number of distinct net translation indices
among the paths, and (3) the groups are ordered by strictly increasing
net translation index. -/
theorem c7_path_group_partition (data : List Row) :
    (∀ p ∈ pathsOf data, ∃! g, g ∈ nearest_neighbor_sorter data ∧ p.1 ∈ g.1) ∧
      (nearest_neighbor_sorter data).length =
        ((pathsOf data).map Prod.snd).toFinset.card ∧
      List.Sorted (· < ·) ((nearest_neighbor_sorter data).map Prod.snd) := by
  set paths := pathsOf data with hpaths
  set ms := (paths.map Prod.snd).toFinset with hms
  have hsnd : ∀ mval, ((((paths.filter fun p => p.2 = mval).map Prod.fst), mval) :
      List (List Row) × ℤ).2 = mval := fun _ => rfl
  refine ⟨?_, ?_, ?_⟩
  · intro p hp
    have hmem : p.2 ∈ Finset.sort (· ≤ ·) ms := by
      rw [Finset.mem_sort, hms, List.mem_toFinset]
      exact List.mem_map.mpr ⟨p, hp, rfl⟩
    refine ⟨(((paths.filter fun q => q.2 = p.2).map Prod.fst), p.2), ⟨?_, ?_⟩, ?_⟩
    · exact List.mem_map.mpr ⟨p.2, hmem, rfl⟩
    · exact List.mem_map.mpr ⟨p, List.mem_filter.mpr ⟨hp, by simp⟩, rfl⟩
    · rintro g ⟨hg, hpg⟩
      obtain ⟨mval, _, rfl⟩ := List.mem_map.mp hg
      obtain ⟨q, hq, hq1⟩ := List.mem_map.mp hpg
      have hqf := List.mem_filter.mp hq
      have hq2 : q.2 = mval := by simpa using hqf.2
      have : q.2 = p.2 := by
        rw [pathsOf_snd_eq data q hqf.1, pathsOf_snd_eq data p hp, hq1]
      rw [← hq2, this]
  · simp only [nearest_neighbor_sorter]
    rw [List.length_map, Finset.length_sort]
  · have : ((nearest_neighbor_sorter data).map Prod.snd) = Finset.sort (· ≤ ·) ms := by
      simp only [nearest_neighbor_sorter, List.map_map]
      exact List.map_id _
    rw [this]
    exact Finset.sort_sorted_lt ms

/-- The concrete origin-anchored row used in the C7 witness. -/
def wRow : Row :=
  { r := 1, angle := 0, x := 1, y := 0, dm := 1, dn := 0, nn := 1, m0 := 0, n0 := 0, mtot := 1 }

lemma filteredOf_wRow : filteredOf [wRow] = [wRow] := by
  simp [filteredOf, wRow]

lemma originRows_wRow : originRows [wRow] = [wRow] := by
  rw [originRows, filteredOf_wRow]
  simp [wRow]

lemma pairPaths_wRow : pairPaths [wRow] = [] := by
  rw [pairPaths, originRows_wRow, filteredOf_wRow]
  simp [wRow]

lemma pathsOf_wRow : pathsOf [wRow] = [([wRow], 1)] := by
  rw [pathsOf, pairPaths_wRow, originRows_wRow]
  simp [wRow]

/-- Witness for C7: on the one-row table `[wRow]` the single path `[wRow]`
lies in exactly one group. -/
theorem c7_path_group_partition_witness :
    ∃! g, g ∈ nearest_neighbor_sorter [wRow] ∧ [wRow] ∈ g.1 :=
  (c7_path_group_partition [wRow]).1 ([wRow], 1) (by rw [pathsOf_wRow]; simp)

/-! ## Neighbor enumerator (`nearest_neighbor_finder` in `functions/models.py`) -/

/-- The requested neighbor orders: `i+1` for every index `i` with a
nonzero hopping amplitude `t_list[i]`. -/
def numbList (t_list : List ℝ) : List ℕ :=
  t_list.enum.filterMap fun p => if p.2 ≠ 0 then some (p.1 + 1) else none

/-- `range(-K, K+1)` as a list of integers. -/
def intRange (K : ℕ) : List ℤ :=
  (List.range (2 * K + 1)).map fun n => (n : ℤ) - K

/-- The grid of candidate displacement vectors: for every integer pair
`(i, j)` in `[-K, K]²`, `i·avec[0] + j·avec[1]` plus every basis offset
(`K = numb_list[-1]`, the highest requested order). -/
def rawVectors (avec abasisvec : List (ℝ × ℝ)) (K : ℕ) : List (ℝ × ℝ) :=
  (intRange K).flatMap fun i => (intRange K).flatMap fun j =>
    abasisvec.map fun bv =>
      ((i : ℝ) * (avec.getD 0 (0, 0)).1 + (j : ℝ) * (avec.getD 1 (0, 0)).1 + bv.1,
       (i : ℝ) * (avec.getD 0 (0, 0)).2 + (j : ℝ) * (avec.getD 1 (0, 0)).2 + bv.2)

/-- The re-centering shift `m_init · acartvec[0] + n_init · acartvec[1]`. -/
def shiftVec (acartvec : List (ℝ × ℝ)) (m_init n_init : ℤ) : ℝ × ℝ :=
  ((m_init : ℝ) * (acartvec.getD 0 (0, 0)).1 + (n_init : ℝ) * (acartvec.getD 1 (0, 0)).1,
   (m_init : ℝ) * (acartvec.getD 0 (0, 0)).2 + (n_init : ℝ) * (acartvec.getD 1 (0, 0)).2)

/-- Columns 0–5 of a data row: rounded radius, `np.angle`, Cartesian x/y,
and the rounded lattice-basis coordinates. -/
def mkRow (acartvec : List (ℝ × ℝ)) (v : ℝ × ℝ) : Row :=
  { r := pyround10 (Real.sqrt (v.1 ^ 2 + v.2 ^ 2))
    angle := Complex.arg ⟨v.1, v.2⟩
    x := v.1
    y := v.2
    dm := round (v.1 / (acartvec.getD 0 (0, 0)).1)
    dn := round (v.2 / (acartvec.getD 1 (0, 0)).2)
    nn := 0, m0 := 0, n0 := 0, mtot := 0 }

/-- Columns 6–9: shell index (position of the row's radius in the sorted
distinct-radius list, plus one), reference cell, and net translation. -/
def labelRow (radii : List ℝ) (m_init n_init : ℤ) (row : Row) : Row :=
  { row with nn := radii.indexOf row.r + 1, m0 := m_init, n0 := n_init,
             mtot := m_init + row.dm }

/-- The sorted list of distinct radii of a data table
(`np.sort(list(set(data[:, 0])))`). -/
def radiiOf (data : List Row) : List ℝ :=
  ((data.map Row.r).toFinset).sort (· ≤ ·)

/-- The steps of `nearest_neighbor_finder` after the radius sort: drop the
radius-0 row, label shells by the sorted distinct radii, and keep only the
rows whose radius belongs to a requested shell (`select_radii`). -/
def postSort (nl : List ℕ) (m_init n_init : ℤ) (data : List Row) : List Row :=
  ((data.filter fun row => row.r ≠ 0).map
      (labelRow (radiiOf (data.filter fun row => row.r ≠ 0)) m_init n_init)).filter
    fun row => row.r ∈ nl.map fun i => (radiiOf (data.filter fun row => row.r ≠ 0)).getD (i - 1) 0

/-- The unsorted data table (rows in grid-generation order). -/
def dataRows (avec acartvec abasisvec : List (ℝ × ℝ)) (t_list : List ℝ)
    (m_init n_init : ℤ) : List Row :=
  (rawVectors avec abasisvec ((numbList t_list).getLastD 0)).map fun v =>
    mkRow acartvec (v.1 - (shiftVec acartvec m_init n_init).1,
      v.2 - (shiftVec acartvec m_init n_init).2)

/-- Embedding of `nearest_neighbor_finder(avec, acartvec, abasisvec,
t_list, m_init, n_init)`: generate the grid, re-center, build the data
rows, sort by radius, drop the zero row, label shells by distinct radius,
and keep only the shells whose index is a requested neighbor order. -/
def nearest_neighbor_finder (avec acartvec abasisvec : List (ℝ × ℝ))
    (t_list : List ℝ) (m_init n_init : ℤ) : List Row :=
  postSort (numbList t_list) m_init n_init
    ((dataRows avec acartvec abasisvec t_list m_init n_init).mergeSort
      fun a b => decide (a.r ≤ b.r))

/-- Proof device: the same pipeline with the radius sort omitted.  Every
step after the sort is a `filter`/`map` whose parameters depend only on
the *set* of radii, so the real output is a permutation of this list. -/
def nearest_neighbor_finder_unsorted (avec acartvec abasisvec : List (ℝ × ℝ))
    (t_list : List ℝ) (m_init n_init : ℤ) : List Row :=
  postSort (numbList t_list) m_init n_init
    (dataRows avec acartvec abasisvec t_list m_init n_init)

lemma postSort_perm (nl : List ℕ) (m_init n_init : ℤ) {d d' : List Row}
    (h : List.Perm d d') :
    List.Perm (postSort nl m_init n_init d) (postSort nl m_init n_init d') := by
  have h2 := h.filter fun row => decide (row.r ≠ 0)
  have hfin : radiiOf (d.filter fun row => row.r ≠ 0) =
      radiiOf (d'.filter fun row => row.r ≠ 0) := by
    unfold radiiOf
    rw [List.toFinset_eq_of_perm _ _ (h2.map Row.r)]
  unfold postSort
  rw [hfin]
  exact (h2.map _).filter _

lemma nearest_neighbor_finder_perm (avec acartvec abasisvec : List (ℝ × ℝ))
    (t_list : List ℝ) (m_init n_init : ℤ) :
    List.Perm (nearest_neighbor_finder avec acartvec abasisvec t_list m_init n_init)
      (nearest_neighbor_finder_unsorted avec acartvec abasisvec t_list m_init n_init) :=
  postSort_perm _ _ _ (List.mergeSort_perm _ _)

/-! ### The square-lattice instance of claim C4:
`a0 = 1`, identity lattice vectors, single-site basis, reference cell
`(0,0)`, hopping list `[1]`. -/

/-- Square-lattice vectors with `a0 = 1` (both `avec` and `acartvec`). -/
def sqAvec : List (ℝ × ℝ) := [(1, 0), (0, 1)]

/-- A data row of the square instance (both re-centering shifts are 0). -/
def sqRow (a b : ℝ) : Row := mkRow sqAvec (a, b)

/-- The output of the neighbor enumerator on the square C4 instance. -/
def sqOut : List Row := nearest_neighbor_finder sqAvec sqAvec [(0, 0)] [1] 0 0

/-- The rounded radius of the second (diagonal) shell. -/
def r2 : ℝ := pyround10 (Real.sqrt 2)

lemma pyround10_one : pyround10 1 = 1 := by
  unfold pyround10
  have h : ((1 : ℝ) * 10 ^ 10) = ((10 ^ 10 : ℤ) : ℝ) := by push_cast; ring
  rw [h, round_intCast]
  norm_num

lemma pyround10_zero : pyround10 0 = 0 := by
  unfold pyround10
  norm_num

lemma r2_gt_one : 1 < r2 := by
  unfold r2 pyround10
  have hs : (1.4 : ℝ) < Real.sqrt 2 := by
    rw [show (1.4 : ℝ) = Real.sqrt (1.4 ^ 2) from
      (Real.sqrt_sq (by norm_num)).symm]
    exact Real.sqrt_lt_sqrt (by norm_num) (by norm_num)
  have hx : (1.4 : ℝ) * 10 ^ 10 < Real.sqrt 2 * 10 ^ 10 := by nlinarith
  have hfl : ((round (Real.sqrt 2 * 10 ^ 10) : ℤ) : ℝ) > Real.sqrt 2 * 10 ^ 10 - 1 / 2 := by
    rw [round_eq]
    have := Int.sub_one_lt_floor (Real.sqrt 2 * 10 ^ 10 + 1 / 2)
    push_cast at this ⊢
    linarith
  rw [lt_div_iff₀ (by norm_num : (0:ℝ) < 10 ^ 10)]
  norm_num at hx hfl ⊢
  linarith

lemma r2_ne_one : r2 ≠ 1 := ne_of_gt r2_gt_one

lemma r2_ne_zero : r2 ≠ 0 := by
  have := r2_gt_one
  intro h
  rw [h] at this
  norm_num at this

lemma numbList_one : numbList [(1:ℝ)] = [1] := by
  unfold numbList
  rw [show ([(1:ℝ)].enum) = [(0, (1:ℝ))] from rfl]
  simp

lemma intRange_one : intRange 1 = [-1, 0, 1] := by decide

lemma shiftVec_sq : shiftVec sqAvec 0 0 = (0, 0) := by
  unfold shiftVec sqAvec
  norm_num

lemma rawVectors_sq : rawVectors sqAvec [(0, 0)] 1 =
    [((-1 : ℝ), (-1 : ℝ)), (-1, 0), (-1, 1), (0, -1), (0, 0), (0, 1),
     (1, -1), (1, 0), (1, 1)] := by
  unfold rawVectors
  rw [intRange_one]
  simp only [List.flatMap_cons, List.flatMap_nil, List.map_cons, List.map_nil,
    List.append_nil, List.cons_append, List.nil_append]
  norm_num [sqAvec]

lemma dataRows_sq : dataRows sqAvec sqAvec [(0, 0)] [1] 0 0 =
    [sqRow (-1) (-1), sqRow (-1) 0, sqRow (-1) 1, sqRow 0 (-1), sqRow 0 0,
     sqRow 0 1, sqRow 1 (-1), sqRow 1 0, sqRow 1 1] := by
  unfold dataRows
  rw [show (numbList [(1:ℝ)]).getLastD 0 = 1 from by rw [numbList_one]; rfl,
    rawVectors_sq, shiftVec_sq]
  simp only [List.map_cons, List.map_nil]
  norm_num [sqRow]

lemma sqRow_r_one {a b : ℝ} (h : a ^ 2 + b ^ 2 = 1) : (sqRow a b).r = 1 := by
  unfold sqRow mkRow
  simp only [h, Real.sqrt_one, pyround10_one]

lemma sqRow_r_r2 {a b : ℝ} (h : a ^ 2 + b ^ 2 = 2) : (sqRow a b).r = r2 := by
  unfold sqRow mkRow r2
  simp only [h]

lemma sqRow_r_zero : (sqRow 0 0).r = 0 := by
  unfold sqRow mkRow
  norm_num [pyround10_zero]

lemma data2_sq :
    List.filter (fun row => decide (row.r ≠ 0)) (dataRows sqAvec sqAvec [(0, 0)] [1] 0 0) =
      [sqRow (-1) (-1), sqRow (-1) 0, sqRow (-1) 1, sqRow 0 (-1),
       sqRow 0 1, sqRow 1 (-1), sqRow 1 0, sqRow 1 1] := by
  rw [dataRows_sq]
  simp only [List.filter_cons, List.filter_nil]
  rw [sqRow_r_r2 (by norm_num : ((-1:ℝ)) ^ 2 + ((-1:ℝ)) ^ 2 = 2),
      sqRow_r_one (by norm_num : ((-1:ℝ)) ^ 2 + (0:ℝ) ^ 2 = 1),
      sqRow_r_r2 (by norm_num : ((-1:ℝ)) ^ 2 + (1:ℝ) ^ 2 = 2),
      sqRow_r_one (by norm_num : (0:ℝ) ^ 2 + ((-1:ℝ)) ^ 2 = 1),
      sqRow_r_zero,
      sqRow_r_one (by norm_num : (0:ℝ) ^ 2 + (1:ℝ) ^ 2 = 1),
      sqRow_r_r2 (by norm_num : ((1:ℝ)) ^ 2 + ((-1:ℝ)) ^ 2 = 2),
      sqRow_r_one (by norm_num : ((1:ℝ)) ^ 2 + (0:ℝ) ^ 2 = 1),
      sqRow_r_r2 (by norm_num : ((1:ℝ)) ^ 2 + ((1:ℝ)) ^ 2 = 2)]
  simp [r2_ne_zero]

lemma radii_sq :
    radiiOf [sqRow (-1) (-1), sqRow (-1) 0, sqRow (-1) 1, sqRow 0 (-1),
      sqRow 0 1, sqRow 1 (-1), sqRow 1 0, sqRow 1 1] = [1, r2] := by
  unfold radiiOf
  simp only [List.map_cons, List.map_nil]
  rw [sqRow_r_r2 (by norm_num : ((-1:ℝ)) ^ 2 + ((-1:ℝ)) ^ 2 = 2),
      sqRow_r_one (by norm_num : ((-1:ℝ)) ^ 2 + (0:ℝ) ^ 2 = 1),
      sqRow_r_r2 (by norm_num : ((-1:ℝ)) ^ 2 + (1:ℝ) ^ 2 = 2),
      sqRow_r_one (by norm_num : (0:ℝ) ^ 2 + ((-1:ℝ)) ^ 2 = 1),
      sqRow_r_one (by norm_num : (0:ℝ) ^ 2 + (1:ℝ) ^ 2 = 1),
      sqRow_r_r2 (by norm_num : ((1:ℝ)) ^ 2 + ((-1:ℝ)) ^ 2 = 2),
      sqRow_r_one (by norm_num : ((1:ℝ)) ^ 2 + (0:ℝ) ^ 2 = 1),
      sqRow_r_r2 (by norm_num : ((1:ℝ)) ^ 2 + ((1:ℝ)) ^ 2 = 2)]
  have hts : ([r2, 1, r2, 1, 1, r2, 1, r2] : List ℝ).toFinset = ({1, r2} : Finset ℝ) := by
    ext x
    simp only [List.toFinset_cons, List.toFinset_nil, Finset.mem_insert,
      Finset.mem_singleton, insert_emptyc_eq]
    tauto
  rw [hts]
  rw [show ({1, r2} : Finset ℝ) = insert 1 {r2} from rfl,
    Finset.sort_insert (· ≤ ·) ?_ ?_, Finset.sort_singleton]
  · intro b hb
    rw [Finset.mem_singleton] at hb
    rw [hb]
    exact le_of_lt r2_gt_one
  · rw [Finset.mem_singleton]
    exact fun hc => r2_ne_one hc.symm

lemma labelRow_r (radii : List ℝ) (m n : ℤ) (row : Row) :
    (labelRow radii m n row).r = row.r := rfl

lemma labelRow_angle (radii : List ℝ) (m n : ℤ) (row : Row) :
    (labelRow radii m n row).angle = row.angle := rfl

lemma sqOutU_eval :
    nearest_neighbor_finder_unsorted sqAvec sqAvec [(0, 0)] [1] 0 0 =
      [labelRow [1, r2] 0 0 (sqRow (-1) 0), labelRow [1, r2] 0 0 (sqRow 0 (-1)),
       labelRow [1, r2] 0 0 (sqRow 0 1), labelRow [1, r2] 0 0 (sqRow 1 0)] := by
  unfold nearest_neighbor_finder_unsorted postSort
  rw [numbList_one, data2_sq, radii_sq]
  have hsel : (([1] : List ℕ).map fun i => ([1, r2] : List ℝ).getD (i - 1) 0) = [1] := by
    simp
  rw [hsel]
  simp only [List.map_cons, List.map_nil]
  rw [List.filter_cons_of_neg (by
        simp [labelRow_r, sqRow_r_r2 (show ((-1:ℝ)) ^ 2 + ((-1:ℝ)) ^ 2 = 2 by norm_num),
          r2_ne_one]),
      List.filter_cons_of_pos (by
        simp [labelRow_r, sqRow_r_one (show ((-1:ℝ)) ^ 2 + (0:ℝ) ^ 2 = 1 by norm_num)]),
      List.filter_cons_of_neg (by
        simp [labelRow_r, sqRow_r_r2 (show ((-1:ℝ)) ^ 2 + (1:ℝ) ^ 2 = 2 by norm_num),
          r2_ne_one]),
      List.filter_cons_of_pos (by
        simp [labelRow_r, sqRow_r_one (show (0:ℝ) ^ 2 + ((-1:ℝ)) ^ 2 = 1 by norm_num)]),
      List.filter_cons_of_pos (by
        simp [labelRow_r, sqRow_r_one (show (0:ℝ) ^ 2 + (1:ℝ) ^ 2 = 1 by norm_num)]),
      List.filter_cons_of_neg (by
        simp [labelRow_r, sqRow_r_r2 (show ((1:ℝ)) ^ 2 + ((-1:ℝ)) ^ 2 = 2 by norm_num),
          r2_ne_one]),
      List.filter_cons_of_pos (by
        simp [labelRow_r, sqRow_r_one (show ((1:ℝ)) ^ 2 + (0:ℝ) ^ 2 = 1 by norm_num)]),
      List.filter_cons_of_neg (by
        simp [labelRow_r, sqRow_r_r2 (show ((1:ℝ)) ^ 2 + ((1:ℝ)) ^ 2 = 2 by norm_num),
          r2_ne_one]),
      List.filter_nil]

lemma sqOut_perm : List.Perm sqOut
    [labelRow [1, r2] 0 0 (sqRow (-1) 0), labelRow [1, r2] 0 0 (sqRow 0 (-1)),
     labelRow [1, r2] 0 0 (sqRow 0 1), labelRow [1, r2] 0 0 (sqRow 1 0)] := by
  have h := nearest_neighbor_finder_perm sqAvec sqAvec [(0, 0)] [1] 0 0
  rw [sqOutU_eval] at h
  exact h

lemma arg_e : Complex.arg ⟨1, 0⟩ = 0 := by
  rw [show (⟨1, 0⟩ : ℂ) = 1 from Complex.ext (by simp) (by simp), Complex.arg_one]

lemma arg_n : Complex.arg ⟨0, 1⟩ = π / 2 := by
  rw [show (⟨0, 1⟩ : ℂ) = Complex.I from Complex.ext (by simp) (by simp), Complex.arg_I]

lemma arg_w : Complex.arg ⟨-1, 0⟩ = π := by
  rw [show (⟨-1, 0⟩ : ℂ) = -1 from Complex.ext (by simp) (by simp), Complex.arg_neg_one]

lemma arg_s : Complex.arg ⟨0, -1⟩ = -(π / 2) := by
  rw [show (⟨0, -1⟩ : ℂ) = -Complex.I from Complex.ext (by simp) (by simp),
    Complex.arg_neg_I]

lemma sqOut_angles_perm :
    List.Perm (sqOut.map Row.angle) [π, -(π / 2), π / 2, 0] := by
  have h := sqOut_perm.map Row.angle
  simp only [List.map_cons, List.map_nil, labelRow_angle] at h
  rw [show (sqRow (-1) 0).angle = Complex.arg ⟨-1, 0⟩ from rfl,
      show (sqRow 0 (-1)).angle = Complex.arg ⟨0, -1⟩ from rfl,
      show (sqRow 0 1).angle = Complex.arg ⟨0, 1⟩ from rfl,
      show (sqRow 1 0).angle = Complex.arg ⟨1, 0⟩ from rfl,
      arg_e, arg_n, arg_w, arg_s] at h
  exact h

/-- **C4 (corrected)**: on the square lattice with `a0 = 1`, a single-site
basis, reference cell `(0, 0)` and hopping list `[1]`, the neighbor
enumerator returns exactly 4 displacement vectors, all of (rounded)
radius `1 = a0`, whose polar-angle column — computed by `np.angle`, whose
range is `(−π, π]` — forms the set `{0, π/2, π, −π/2}`.  This is the
claimed set of directions, but the fourth angle is represented as `−π/2`,
not `3π/2`. -/
theorem c4_square_neighbor_enumeration :
    sqOut.length = 4 ∧
      (↑(sqOut.map Row.r) : Multiset ℝ) = Multiset.replicate 4 1 ∧
      (sqOut.map Row.angle).toFinset = ({0, π / 2, π, -(π / 2)} : Finset ℝ) := by
  refine ⟨?_, ?_, ?_⟩
  · rw [sqOut_perm.length_eq]
    rfl
  · have h := sqOut_perm.map Row.r
    simp only [List.map_cons, List.map_nil, labelRow_r] at h
    rw [sqRow_r_one (show ((-1:ℝ)) ^ 2 + (0:ℝ) ^ 2 = 1 by norm_num),
        sqRow_r_one (show (0:ℝ) ^ 2 + ((-1:ℝ)) ^ 2 = 1 by norm_num),
        sqRow_r_one (show (0:ℝ) ^ 2 + (1:ℝ) ^ 2 = 1 by norm_num),
        sqRow_r_one (show ((1:ℝ)) ^ 2 + (0:ℝ) ^ 2 = 1 by norm_num)] at h
    rw [show (Multiset.replicate 4 (1:ℝ)) = ↑([1, 1, 1, 1] : List ℝ) from rfl]
    exact Multiset.coe_eq_coe.mpr h
  · rw [List.toFinset_eq_of_perm _ _ sqOut_angles_perm]
    ext z
    simp only [List.toFinset_cons, List.toFinset_nil, insert_emptyc_eq,
      Finset.mem_insert, Finset.mem_singleton]
    tauto

/-- **C4 counterexample**: the angle column of the square-instance output
contains `−π/2`, which is not an element of the claimed angle set
`{0, π/2, π, 3π/2}` (all four claimed values differ from `−π/2` since
`π > 0`), so the claim's angle set is not the set of returned angles. -/
theorem c4_angle_set_counterexample :
    (-(π / 2)) ∈ sqOut.map Row.angle ∧
      (-(π / 2)) ∉ ({0, π / 2, π, 3 * π / 2} : Finset ℝ) := by
  constructor
  · rw [sqOut_angles_perm.mem_iff]
    simp
  · have hπ := Real.pi_pos
    simp only [Finset.mem_insert, Finset.mem_singleton]
    push_neg
    refine ⟨by linarith, by linarith, by linarith, by linarith⟩

/-! ## Hamiltonian assembler (`diag_func` / `Hamiltonian` in
`functions/models.py`)

The `q×q` matrix is indexed by `ZMod q`, which models numpy's cyclic
`np.roll` and the `% q` band indexing exactly. -/

instance : Inhabited Row :=
  ⟨{ r := 0, angle := 0, x := 0, y := 0, dm := 0, dn := 0, nn := 0, m0 := 0, n0 := 0,
     mtot := 0 }⟩

/-- One summand of `diag_func`:
`-t_val[NN_group-1] * peierls_factor(basis, nphi, (Δm, Δn), m) * exp(1j·(x·kx + y·ky))`. -/
def rowTerm (basis : ℕ) (t_val : List ℝ) (nphi : ℝ) (k : ℝ × ℝ) (m : ℝ) (row : Row) : ℂ :=
  -((t_val.getD (row.nn - 1) 0 : ℝ) : ℂ) * peierls_factor basis nphi (row.dm, row.dn) m
    * Complex.exp (Complex.I * ((row.x * k.1 + row.y * k.2 : ℝ) : ℂ))

/-- Embedding of `diag_func(basis, t_val, nphi, vec_list, k, m)`: the sum
of `rowTerm` over every row of every path of the group. -/
def diag_func (basis : ℕ) (t_val : List ℝ) (nphi : ℝ) (vec_list : List (List Row))
    (k : ℝ × ℝ) (m : ℝ) : ℂ :=
  (vec_list.map fun path => (path.map (rowTerm basis t_val nphi k m)).sum).sum

/-- `np.diag(d)` on the cyclic index set. -/
def npDiag {q : ℕ} (d : ZMod q → ℂ) : Matrix (ZMod q) (ZMod q) ℂ :=
  Matrix.of fun a b => if a = b then d a else 0

/-- `np.roll(M, s, axis=1)`: column `b` takes its value from column `b - s`. -/
def npRollCols {q : ℕ} (M : Matrix (ZMod q) (ZMod q) ℂ) (s : ℤ) :
    Matrix (ZMod q) (ZMod q) ℂ :=
  Matrix.of fun a b => M a (b - (s : ZMod q))

/-- `np.roll(M, s, axis=0)`: row `a` takes its value from row `a - s`. -/
def npRollRows {q : ℕ} (M : Matrix (ZMod q) (ZMod q) ℂ) (s : ℤ) :
    Matrix (ZMod q) (ZMod q) ℂ :=
  Matrix.of fun a b => M (a - (s : ZMod q)) b

/-- Embedding of the inner `upper_diag_func` of the multi-site branch of
`Hamiltonian`: for every group with net translation `i_val`, a sum over
its two-row paths of two Peierls factors and two plane-wave factors, the
intermediate band index taken modulo `q+1`. -/
def upper_diag_func (basis : ℕ) (nphi : ℝ) (groups : List (List (List Row) × ℤ))
    (q : ℕ) (k : ℝ × ℝ) (m_val i_val : ℤ) : ℂ :=
  (groups.map fun g =>
    if g.2 = i_val then
      (g.1.map fun path =>
        peierls_factor basis nphi ((path.getD 0 default).dm, (path.getD 0 default).dn)
            (((m_val + (path.getD 0 default).m0) % ((q : ℤ) + 1) : ℤ) : ℝ)
          * Complex.exp (Complex.I *
              (((path.getD 0 default).x * k.1 + (path.getD 0 default).y * k.2 : ℝ) : ℂ))
          * peierls_factor basis nphi ((path.getD 1 default).dm, (path.getD 1 default).dn)
            (((m_val + (path.getD 1 default).m0) % ((q : ℤ) + 1) : ℤ) : ℝ)
          * Complex.exp (Complex.I *
              (((path.getD 1 default).x * k.1 + (path.getD 1 default).y * k.2 : ℝ) : ℂ))).sum
    else 0).sum

/-- Embedding of `Hamiltonian(basis, t_val, p_val, q_val, acartvec,
vec_group_list, k_val)` (the unused `acartvec` parameter is omitted).
For `basis == 1`: the `m = 0` group (taken at position `len//2`, the
middle of the group list) fills the diagonal, and every positive net
translation `i` contributes a cyclically-rolled band plus its conjugate
band.  Otherwise: every non-negative net translation contributes a rolled
`upper_diag_func` band plus its conjugate band. -/
def Hamiltonian_assemble (basis : ℕ) (t_val : List ℝ) (p_val : ℤ) (q_val : ℕ)
    (vec_group_list : List (List (List Row) × ℤ)) (k_val : ℝ × ℝ) :
    Matrix (ZMod q_val) (ZMod q_val) ℂ :=
  if basis = 1 then
    (((vec_group_list.map Prod.snd).filter fun i => 0 ≤ i).enum.map fun pr =>
      if pr.2 = 0 then
        npDiag fun a => diag_func basis t_val ((p_val : ℝ) / (q_val : ℝ))
          (vec_group_list.getD (vec_group_list.length / 2) ([], 0)).1 k_val ((a.val : ℝ))
      else
        npRollCols (npDiag fun a => diag_func basis t_val ((p_val : ℝ) / (q_val : ℝ))
            (vec_group_list.getD (vec_group_list.length / 2 + pr.1) ([], 0)).1 k_val
            ((((a.val : ℤ) + pr.2) % (q_val : ℤ) : ℤ) : ℝ)) pr.2
          + npRollRows (npDiag fun a => (starRingEnd ℂ)
              (diag_func basis t_val ((p_val : ℝ) / (q_val : ℝ))
                (vec_group_list.getD (vec_group_list.length / 2 + pr.1) ([], 0)).1 k_val
                ((((a.val : ℤ) + pr.2) % (q_val : ℤ) : ℤ) : ℝ))) pr.2).sum
  else
    (((vec_group_list.map Prod.snd).filter fun i => 0 ≤ i).map fun i =>
      npRollCols (npDiag fun a => upper_diag_func basis ((p_val : ℝ) / (q_val : ℝ))
          vec_group_list q_val k_val (((a.val : ℤ) + i) % (q_val : ℤ)) i) i
        + npRollRows (npDiag fun a => (starRingEnd ℂ)
            (upper_diag_func basis ((p_val : ℝ) / (q_val : ℝ))
              vec_group_list q_val k_val (((a.val : ℤ) + i) % (q_val : ℤ)) i)) i).sum

lemma npRollCols_diag_conjTranspose {q : ℕ} (d : ZMod q → ℂ) (s : ℤ) :
    (npRollCols (npDiag d) s)ᴴ =
      npRollRows (npDiag fun a => (starRingEnd ℂ) (d a)) s := by
  unfold npRollCols npRollRows npDiag
  ext a b
  simp only [Matrix.conjTranspose_apply, Matrix.of_apply]
  by_cases h : b = a - (s : ZMod q)
  · rw [if_pos h, if_pos h.symm, h]
    rfl
  · rw [if_neg h, if_neg fun hc => h hc.symm, star_zero]

lemma npRoll_pair_hermitian {q : ℕ} (d : ZMod q → ℂ) (s : ℤ) :
    (npRollCols (npDiag d) s + npRollRows (npDiag fun a => (starRingEnd ℂ) (d a)) s)ᴴ =
      npRollCols (npDiag d) s + npRollRows (npDiag fun a => (starRingEnd ℂ) (d a)) s := by
  rw [Matrix.conjTranspose_add, npRollCols_diag_conjTranspose]
  have h2 : (npRollRows (npDiag fun a => (starRingEnd ℂ) (d a)) s)ᴴ =
      npRollCols (npDiag d) s := by
    rw [← npRollCols_diag_conjTranspose, Matrix.conjTranspose_conjTranspose]
  rw [h2, add_comm]

lemma npDiag_hermitian {q : ℕ} (d : ZMod q → ℂ)
    (h : ∀ a, (starRingEnd ℂ) (d a) = d a) : (npDiag d)ᴴ = npDiag d := by
  unfold npDiag
  ext a b
  simp only [Matrix.conjTranspose_apply, Matrix.of_apply]
  by_cases hab : b = a
  · rw [if_pos hab, if_pos hab.symm, hab]
    exact h a
  · rw [if_neg hab, if_neg fun hc => hab hc.symm, star_zero]

lemma list_sum_hermitian {n : Type*} (l : List (Matrix n n ℂ))
    (h : ∀ M ∈ l, Mᴴ = M) : l.sumᴴ = l.sum := by
  induction l with
  | nil => simp
  | cons M l ih =>
      rw [List.sum_cons, Matrix.conjTranspose_add, h M (List.mem_cons_self M l),
        ih fun M' hM' => h M' (List.mem_cons_of_mem _ hM')]

/-- The data of a row that determines its `rowTerm` in the single-site
case (`Δm = 0`): shell index, `Δn`, and the Cartesian displacement. -/
def keyOf (row : Row) : ℕ × ℤ × ℝ × ℝ := (row.nn, row.dn, row.x, row.y)

/-- Spatial inversion of a key: the key of the oppositely-directed hop. -/
def negKey (kk : ℕ × ℤ × ℝ × ℝ) : ℕ × ℤ × ℝ × ℝ := (kk.1, -kk.2.1, -kk.2.2.1, -kk.2.2.2)

/-- The single-site `rowTerm` as a function of the key alone. -/
def keyTerm (t_val : List ℝ) (nphi : ℝ) (k : ℝ × ℝ) (m : ℝ) (kk : ℕ × ℤ × ℝ × ℝ) : ℂ :=
  -((t_val.getD (kk.1 - 1) 0 : ℝ) : ℂ)
    * Complex.exp (Complex.I * ((2 * π * nphi * (kk.2.1 : ℝ) * m : ℝ) : ℂ))
    * Complex.exp (Complex.I * ((kk.2.2.1 * k.1 + kk.2.2.2 * k.2 : ℝ) : ℂ))

lemma rowTerm_eq_keyTerm (t_val : List ℝ) (nphi : ℝ) (k : ℝ × ℝ) (m : ℝ)
    (row : Row) (hdm : row.dm = 0) :
    rowTerm 1 t_val nphi k m row = keyTerm t_val nphi k m (keyOf row) := by
  unfold rowTerm keyTerm keyOf peierls_factor peierlsArea
  rw [hdm]
  norm_num

lemma keyTerm_conj (t_val : List ℝ) (nphi : ℝ) (k : ℝ × ℝ) (m : ℝ)
    (kk : ℕ × ℤ × ℝ × ℝ) :
    (starRingEnd ℂ) (keyTerm t_val nphi k m kk) = keyTerm t_val nphi k m (negKey kk) := by
  unfold keyTerm negKey
  rw [map_mul, map_mul, map_neg, Complex.conj_ofReal, ← Complex.exp_conj,
    ← Complex.exp_conj, map_mul, map_mul, Complex.conj_I, Complex.conj_ofReal,
    Complex.conj_ofReal]
  push_cast
  ring_nf

lemma diag_func_flatten (basis : ℕ) (t_val : List ℝ) (nphi : ℝ)
    (vl : List (List Row)) (k : ℝ × ℝ) (m : ℝ) :
    diag_func basis t_val nphi vl k m =
      ((vl.flatten).map (rowTerm basis t_val nphi k m)).sum := by
  unfold diag_func
  induction vl with
  | nil => rfl
  | cons p vl ih =>
      rw [List.map_cons, List.sum_cons, List.flatten_cons, List.map_append,
        List.sum_append, ih]

lemma sum_conj_key (t_val : List ℝ) (nphi : ℝ) (k : ℝ × ℝ) (m : ℝ)
    (keys : List (ℕ × ℤ × ℝ × ℝ))
    (hsym : Multiset.map negKey (↑keys : Multiset (ℕ × ℤ × ℝ × ℝ)) = ↑keys) :
    (starRingEnd ℂ) ((keys.map (keyTerm t_val nphi k m)).sum) =
      (keys.map (keyTerm t_val nphi k m)).sum := by
  rw [map_list_sum, List.map_map]
  have h2 : keys.map (⇑(starRingEnd ℂ) ∘ keyTerm t_val nphi k m) =
      (keys.map negKey).map (keyTerm t_val nphi k m) := by
    rw [List.map_map]
    exact List.map_congr_left fun kk _ => keyTerm_conj t_val nphi k m kk
  rw [h2]
  calc ((keys.map negKey).map (keyTerm t_val nphi k m)).sum
      = (Multiset.map (keyTerm t_val nphi k m)
          (Multiset.map negKey (↑keys : Multiset (ℕ × ℤ × ℝ × ℝ)))).sum := by
        rw [Multiset.map_coe, Multiset.map_coe, Multiset.sum_coe]
    _ = (Multiset.map (keyTerm t_val nphi k m)
          (↑keys : Multiset (ℕ × ℤ × ℝ × ℝ))).sum := by rw [hsym]
    _ = (keys.map (keyTerm t_val nphi k m)).sum := by
        rw [Multiset.map_coe, Multiset.sum_coe]

lemma diag_func_real (t_val : List ℝ) (nphi : ℝ) (vl : List (List Row))
    (k : ℝ × ℝ) (m : ℝ)
    (hdm : ∀ row ∈ vl.flatten, row.dm = 0)
    (hsym : Multiset.map negKey (↑((vl.flatten).map keyOf) : Multiset (ℕ × ℤ × ℝ × ℝ)) =
      ↑((vl.flatten).map keyOf)) :
    (starRingEnd ℂ) (diag_func 1 t_val nphi vl k m) = diag_func 1 t_val nphi vl k m := by
  rw [diag_func_flatten]
  have h1 : (vl.flatten).map (rowTerm 1 t_val nphi k m) =
      ((vl.flatten).map keyOf).map (keyTerm t_val nphi k m) := by
    rw [List.map_map]
    exact List.map_congr_left fun row hrow =>
      rowTerm_eq_keyTerm t_val nphi k m row (hdm row hrow)
  rw [h1]
  exact sum_conj_key t_val nphi k m _ hsym

/-- The rows (over all paths) of the group at position `len//2` in the
group list — the group the single-site branch of `Hamiltonian` uses to
fill the diagonal. -/
def middleRows (groups : List (List (List Row) × ℤ)) : List Row :=
  ((groups.getD (groups.length / 2) ([], 0)).1).flatten

/-- **C1 (confirmed)**: the assembled Hamiltonian is Hermitian.  Every
off-diagonal band is inserted together with its conjugate band at the
mirrored position, so those contributions are Hermitian for any input.
The single-site diagonal band is read from the middle path group, and it
is built only when `0` occurs among the net translation indices; in that
case, for any table produced by the pipeline for a flux-threaded Bravais
lattice, the net-translation list is symmetric about `0`, the middle
group is the zero-net-translation group, its rows have zero horizontal
cell shift `Δm = 0`, and the group is closed under spatial inversion
`(Δn, x, y) ↦ (−Δn, −x, −y)` with equal shell index — which the
hypothesis `hmid` records, conditional on `0` being a net translation.
When `0` is not a net translation (e.g. square lattice with hopping list
`[0, 1]`, whose groups have net translations `{−1, 1}`), the diagonal
branch never runs and Hermiticity holds with no condition at all. -/
theorem c1_hamiltonian_hermitian (basis : ℕ) (t_val : List ℝ) (p_val : ℤ)
    (q_val : ℕ) (groups : List (List (List Row) × ℤ)) (k_val : ℝ × ℝ)
    (hmid : basis = 1 → (0 : ℤ) ∈ groups.map Prod.snd →
      (∀ row ∈ middleRows groups, row.dm = 0) ∧
      Multiset.map negKey (↑((middleRows groups).map keyOf) : Multiset (ℕ × ℤ × ℝ × ℝ)) =
        ↑((middleRows groups).map keyOf)) :
    (Hamiltonian_assemble basis t_val p_val q_val groups k_val)ᴴ =
      Hamiltonian_assemble basis t_val p_val q_val groups k_val := by
  unfold Hamiltonian_assemble
  split_ifs with hb
  · subst hb
    apply list_sum_hermitian
    intro M hM
    obtain ⟨pr, hpr, rfl⟩ := List.mem_map.mp hM
    split_ifs with hi
    · have hmem : (0 : ℤ) ∈ groups.map Prod.snd := by
        have h2 : ((groups.map Prod.snd).filter fun i => decide (0 ≤ i))[pr.1]? =
            some pr.2 := List.mem_enum_iff_getElem?.mp hpr
        have h3 : pr.2 ∈ (groups.map Prod.snd).filter fun i => decide (0 ≤ i) :=
          List.getElem?_mem h2
        have h4 := (List.mem_filter.mp h3).1
        rwa [hi] at h4
      obtain ⟨hdm, hsym⟩ := hmid rfl hmem
      exact npDiag_hermitian _ fun a =>
        diag_func_real t_val _ _ k_val _ hdm hsym
    · exact npRoll_pair_hermitian _ _
  · apply list_sum_hermitian
    intro M hM
    obtain ⟨i, _, rfl⟩ := List.mem_map.mp hM
    exact npRoll_pair_hermitian _ _

/-- C1 witness data: the two vertical first-shell hops of the square
lattice (net translation 0, `Δm = 0`), as produced by the pipeline. -/
def wUp : Row :=
  { r := 1, angle := 0, x := 0, y := 1, dm := 0, dn := 1, nn := 1, m0 := 0, n0 := 0,
    mtot := 0 }

/-- The downward hop, the spatial inverse of `wUp`. -/
def wDn : Row :=
  { r := 1, angle := 0, x := 0, y := -1, dm := 0, dn := -1, nn := 1, m0 := 0, n0 := 0,
    mtot := 0 }

/-- C1 witness group list: a single zero-translation group of two
single-row paths. -/
def wGroups : List (List (List Row) × ℤ) := [([[wUp], [wDn]], 0)]

lemma middleRows_wGroups : middleRows wGroups = [wUp, wDn] := rfl

/-- Witness for C1: the concrete single-site instance `q = 2`, `t = [1]`,
`p/q = 1/2`, `k = (0, 0)` with the symmetric zero-translation group. -/
theorem c1_hamiltonian_hermitian_witness :
    (Hamiltonian_assemble 1 [1] 1 2 wGroups (0, 0))ᴴ =
      Hamiltonian_assemble 1 [1] 1 2 wGroups (0, 0) :=
  c1_hamiltonian_hermitian 1 [1] 1 2 wGroups (0, 0) (fun _ _ => by
    constructor
    · intro row hrow
      rw [middleRows_wGroups] at hrow
      rcases List.mem_cons.mp hrow with h | hrow2
      · rw [h]; rfl
      · rcases List.mem_cons.mp hrow2 with h | h
        · rw [h]; rfl
        · simp at h
    · rw [middleRows_wGroups]
      have hk : [wUp, wDn].map keyOf = [(1, 1, 0, 1), (1, -1, 0, -1)] := rfl
      rw [hk]
      have hneg1 : negKey (1, 1, 0, 1) = (1, -1, 0, -1) := by
        unfold negKey
        norm_num
      have hneg2 : negKey (1, -1, 0, -1) = (1, 1, 0, 1) := by
        unfold negKey
        norm_num
      rw [Multiset.map_coe, List.map_cons, List.map_cons, List.map_nil, hneg1, hneg2]
      exact Multiset.coe_eq_coe.mpr (List.Perm.swap _ _ _))

end HofTools
